import Mathlib

/-!
Shallow embedding of the zerocopy-buf crate (conradludgate/zerocopy-buf).

Bytes are modelled as `Nat` (values below 256 in practice; none of the
verified properties depend on the bound). A contiguous buffer
(`Bytes`, `BytesMut`, `&[u8]`) is a `List Nat`. A possibly-chunked
`bytes::Buf` (for example a `Chain` of `Bytes`) is a `List (List Nat)`:
the sequence of its chunks.

A zerocopy target type `T` is abstracted by its layout numbers:
a fixed-size `T` by `sizeT = size_of::<T>()`, a slice DST by the
fixed prefix size and the element size. Since the relevant zerocopy
traits (`FromBytes`, `Unaligned`, `KnownLayout`) make every byte pattern
of the right length a legal value and impose no alignment requirement,
a value of `T` is represented by its byte representation, a `List Nat`
of length `sizeT`; a `Ref<B, T>` is represented by the byte range it
validates.
-/

namespace ZerocopyBuf

/-- Total content of a chunked `Buf`: the concatenation of its chunks. -/
def flat (cs : List (List Nat)) : List Nat := cs.flatten

/-- Model of `Buf::remaining` for a chunked buffer: total bytes left
(`Chain::remaining` is the sum of the parts). -/
def remaining (cs : List (List Nat)) : Nat := (cs.map List.length).sum

/-- Model of `Buf::chunk` for a chunked buffer. `Chain::chunk` returns the
first part's chunk while that part has bytes remaining, otherwise the later
part's chunk; so the visible chunk is the first non-empty one, and the empty
slice once the buffer is exhausted. -/
def chunk : List (List Nat) → List Nat
  | [] => []
  | c :: rest => if c.isEmpty then chunk rest else c

/-- Model of `Buf::advance n` for a chunked buffer. `Chain::advance` drains
the first part (leaving it present but empty) before advancing into the
later parts. -/
def advance : List (List Nat) → Nat → List (List Nat)
  | [], _ => []
  | c :: rest, n =>
    if n ≤ c.length then c.drop n :: rest
    else [] :: advance rest (n - c.length)

/-- The `while !c.is_empty()` loop of `buf_polyfill::copy_to_uninit_slice`:
each iteration looks at the current chunk `src`, copies
`cnt = min(src.len(), c.len())` bytes into the destination and advances the
buffer by `cnt`. The source loop has no fuel parameter; here `fuel` bounds
the number of iterations, and `none` models non-termination (a stalled
iteration with `cnt = 0` makes no progress). `copyLoop fuel cs n` returns
the bytes written into the destination of length `n` and the buffer left
behind. -/
def copyLoop (fuel : Nat) (cs : List (List Nat)) (n : Nat) :
    Option (List Nat × List (List Nat)) :=
  match n, fuel with
  | 0, _ => some ([], cs)
  | _ + 1, 0 => none
  | m + 1, f + 1 =>
    let src := chunk cs
    let cnt := min src.length (m + 1)
    (copyLoop f (advance cs cnt) (m + 1 - cnt)).map
      fun p => (src.take cnt ++ p.fst, p.snd)

/-- Model of `buf_polyfill::copy_to_uninit_slice this dst` with
`dstLen = dst.len()`: if `this.remaining() < dst.len()` it returns `None`
without touching the buffer; otherwise it runs the copy loop (the loop is
proved below to finish within `dstLen` iterations, so `dstLen` fuel is
exact). On success it returns the now-initialised destination bytes and the
advanced buffer. -/
def copy_to_uninit_slice (cs : List (List Nat)) (dstLen : Nat) :
    Option (List Nat × List (List Nat)) :=
  if remaining cs < dstLen then none else copyLoop dstLen cs dstLen

/-- Model of `T::read_from_bytes` from zerocopy for a `FromBytes` type of
size `sizeT`: succeeds exactly when the source length matches, and the
resulting value is (represented by) those bytes. -/
def read_from_bytes (sizeT : Nat) (bytes : List Nat) : Option (List Nat) :=
  if bytes.length = sizeT then some bytes else none

/-- Model of `ZeroCopyReadBuf::try_read` (the blanket impl for any `Buf`):
allocate `size_of::<T>()` uninitialised bytes, fill them with
`copy_to_uninit_slice` (on failure `unwrap_or_default` substitutes the
empty slice and the buffer is untouched), then `T::read_from_bytes`.
Returns the result together with the buffer afterwards; `none` models
`Err(SizeError)`. -/
def try_read (sizeT : Nat) (cs : List (List Nat)) :
    Option (List Nat) × List (List Nat) :=
  match copy_to_uninit_slice cs sizeT with
  | none => (read_from_bytes sizeT [], cs)
  | some (bytes, csAdv) => (read_from_bytes sizeT bytes, csAdv)

/-- The usize maximum of the 64-bit platform the crate is compiled for. -/
def usizeMax : Nat := 2 ^ 64 - 1

/-- Rust's `usize::checked_mul`. -/
def checked_mul (a b : Nat) : Option Nat :=
  if a * b ≤ usizeMax then some (a * b) else none

/-- Rust's `usize::checked_add`. -/
def checked_add (a b : Nat) : Option Nat :=
  if a + b ≤ usizeMax then some (a + b) else none

/-- Model of zerocopy's `KnownLayout::size_for_metadata` for a slice DST
with `count` elements: `element_size * count + fixed prefix size`, computed
with checked arithmetic; `None` on usize overflow, which zerocopy turns
into a `SizeError`. -/
def size_for_metadata (fixedSize elemSize count : Nat) : Option Nat :=
  (checked_mul elemSize count).bind fun sz => checked_add sz fixedSize

/-- Model of zerocopy's `Ref::from_prefix` over a contiguous byte source for
an `Unaligned + KnownLayout` type of size `sizeT`: alignment is trivially
satisfied, so the only check is the length; on success the source is split
after `sizeT` bytes into the validated range (the `Ref`) and the suffix. -/
def ref_from_front (sizeT : Nat) (src : List Nat) :
    Option (List Nat × List Nat) :=
  if sizeT ≤ src.length then some (src.take sizeT, src.drop sizeT) else none

/-- Model of zerocopy's `Ref::from_prefix_with_elems` for a slice DST:
compute the total size from the caller-supplied element count with checked
arithmetic, then split as in `ref_from_front`. -/
def ref_from_front_with_elems (fixedSize elemSize count : Nat)
    (src : List Nat) : Option (List Nat × List Nat) :=
  match size_for_metadata fixedSize elemSize count with
  | none => none
  | some sz => ref_from_front sz src

/-- Model of `ZeroCopyBuf::try_get` for `Bytes`, `BytesMut` and `&[u8]`
(the three impls differ only in ownership plumbing): `Ref::from_prefix` on
the taken buffer; on success the suffix becomes the new buffer state, on
error the original buffer is restored (for `Bytes`/`BytesMut` via
`mem::replace` in `map_src`; for `&[u8]` the early return leaves `*self`
unassigned). -/
def try_get (sizeT : Nat) (buf : List Nat) : Option (List Nat) × List Nat :=
  match ref_from_front sizeT buf with
  | some (a, b) => (some a, b)
  | none => (none, buf)

/-- Model of `ZeroCopyBuf::try_get_elems` for `Bytes`, `BytesMut` and
`&[u8]`: as `try_get` but through `Ref::from_prefix_with_elems`. -/
def try_get_elems (fixedSize elemSize count : Nat) (buf : List Nat) :
    Option (List Nat) × List Nat :=
  match ref_from_front_with_elems fixedSize elemSize count buf with
  | some (a, b) => (some a, b)
  | none => (none, buf)

/-- Model of `ZeroCopyBuf::try_peek` for `Bytes`, `BytesMut` and `&[u8]`:
`Ref::from_prefix` on the dereferenced bytes, keeping only the validated
range and never assigning the buffer; the state afterwards is the state
before. -/
def try_peek (sizeT : Nat) (buf : List Nat) : Option (List Nat) × List Nat :=
  ((ref_from_front sizeT buf).map Prod.fst, buf)

/-- Model of `ZeroCopyBuf::try_peek_elems`, as `try_peek` but through
`Ref::from_prefix_with_elems`. -/
def try_peek_elems (fixedSize elemSize count : Nat) (buf : List Nat) :
    Option (List Nat) × List Nat :=
  ((ref_from_front_with_elems fixedSize elemSize count buf).map Prod.fst, buf)

/-- Model of `ZeroCopyBufMut::write` (the blanket impl for any `BufMut`):
`put_slice(t.as_bytes())` appends the value's byte representation to the
growable destination. -/
def write (buf : List Nat) (t : List Nat) : List Nat := buf ++ t

/-- The `Ipv4Header` struct of the crate's tests: `repr(C)` with fields
`version_uhl: u8` (offset 0), `dscp_ecn: u8` (1),
`total_length: network_endian::U16` (2), `identification: U16` (4),
`flags_fragment: U16` (6), `ttl: u8` (8), `protocol: u8` (9),
`checksum: U16` (10), `src: [u8; 4]` (12), `dst: [u8; 4]` (16);
20 bytes in total. Only the fields the verified scenario names are kept. -/
structure Ipv4Header where
  version_uhl : Nat
  total_length : Nat
  ttl : Nat
  protocol : Nat
  src : List Nat
  dst : List Nat
deriving DecidableEq

/-- Decode the named `Ipv4Header` fields from a 20-byte representation,
reading the multi-byte field in network (big-endian) order. -/
def Ipv4Header.ofBytes (b : List Nat) : Ipv4Header where
  version_uhl := b.getD 0 0
  total_length := 256 * b.getD 2 0 + b.getD 3 0
  ttl := b.getD 8 0
  protocol := b.getD 9 0
  src := (b.drop 12).take 4
  dst := (b.drop 16).take 4

/-- The 44-byte stream of the crate's `try_get_elems` test: two concatenated
20-byte IPv4 headers followed by the four trailing bytes ff fe fd fc. -/
def testStream44 : List Nat :=
  [0x45, 0x00, 0x00, 0x14, 0x00, 0x00, 0x00, 0x00, 0x01, 0x06, 0x00, 0x00,
   0x7f, 0x00, 0x00, 0x01, 0x7f, 0x00, 0x00, 0x02,
   0x45, 0x00, 0x00, 0x14, 0x00, 0x00, 0x00, 0x00, 0x01, 0x06, 0x00, 0x00,
   0x7f, 0x00, 0x00, 0x01, 0x7f, 0x00, 0x00, 0x02,
   0xff, 0xfe, 0xfd, 0xfc]

/-! Helper lemmas about the chunked-buffer model. -/

lemma remaining_eq_length_flat (cs : List (List Nat)) :
    remaining cs = (flat cs).length := by
  simp [remaining, flat]

lemma advance_zero (cs : List (List Nat)) : advance cs 0 = cs := by
  cases cs with
  | nil => rfl
  | cons c rest => simp [advance]

lemma flat_advance (cs : List (List Nat)) (n : Nat) :
    flat (advance cs n) = (flat cs).drop n := by
  induction cs generalizing n with
  | nil => simp [advance, flat]
  | cons c rest ih =>
    by_cases h : n ≤ c.length
    · have hs : n - c.length = 0 := by omega
      simp [advance, h, flat, List.drop_append_eq_append_drop, hs]
    · have hd : c.drop n = [] := List.drop_eq_nil_of_le (by omega)
      have ih' := ih (n - c.length)
      simp only [flat] at ih'
      simp [advance, h, flat, List.drop_append_eq_append_drop, hd, ih']

lemma chunk_take (cs : List (List Nat)) :
    (flat cs).take (chunk cs).length = chunk cs := by
  induction cs with
  | nil => simp [flat, chunk]
  | cons c rest ih =>
    by_cases hc : c.isEmpty
    · have hc0 : c = [] := List.isEmpty_iff.mp hc
      subst hc0
      simpa [flat, chunk] using ih
    · simp [flat, chunk, hc, List.take_left]

lemma chunk_eq_nil (cs : List (List Nat)) (h : chunk cs = []) : flat cs = [] := by
  induction cs with
  | nil => simp [flat]
  | cons c rest ih =>
    by_cases hc : c.isEmpty
    · have hc0 : c = [] := List.isEmpty_iff.mp hc
      subst hc0
      simp only [chunk, List.isEmpty_nil, if_true] at h
      simpa [flat] using ih h
    · simp only [chunk, hc, if_false] at h
      exact absurd h (by simpa using hc)

lemma chunk_length_le (cs : List (List Nat)) :
    (chunk cs).length ≤ (flat cs).length := by
  have h := congrArg List.length (chunk_take cs)
  simp only [List.length_take] at h
  omega

lemma advance_cons (c : List Nat) (rest : List (List Nat)) (n : Nat) :
    advance (c :: rest) n =
      if n ≤ c.length then c.drop n :: rest
      else [] :: advance rest (n - c.length) := rfl

lemma advance_advance (cs : List (List Nat)) (m n : Nat) :
    advance (advance cs m) n = advance cs (m + n) := by
  induction cs generalizing m n with
  | nil => simp [advance]
  | cons c rest ih =>
    rcases Nat.eq_zero_or_pos n with hn0 | hnpos
    · subst hn0
      rw [advance_zero, Nat.add_zero]
    by_cases hm : m ≤ c.length
    · rw [advance_cons c rest m, if_pos hm,
        advance_cons (c.drop m) rest n, List.length_drop,
        advance_cons c rest (m + n)]
      by_cases hn : n ≤ c.length - m
      · rw [if_pos hn, if_pos (by omega), List.drop_drop]
      · rw [if_neg hn, if_neg (by omega)]
        have harg : n - (c.length - m) = m + n - c.length := by omega
        rw [harg]
    · rw [advance_cons c rest m, if_neg hm,
        advance_cons [] (advance rest (m - c.length)) n, List.length_nil,
        advance_cons c rest (m + n), if_neg (by omega), if_neg (by omega),
        Nat.sub_zero, ih]
      have harg : m - c.length + n = m + n - c.length := by omega
      rw [harg]

lemma copyLoop_correct (fuel : Nat) :
    ∀ (cs : List (List Nat)) (n : Nat), n ≤ remaining cs → n ≤ fuel →
    copyLoop fuel cs n = some ((flat cs).take n, advance cs n) := by
  induction fuel with
  | zero =>
    intro cs n _ hf
    have hn : n = 0 := by omega
    subst hn
    simp [copyLoop, advance_zero]
  | succ f ih =>
    intro cs n hr hf
    cases n with
    | zero => simp [copyLoop, advance_zero]
    | succ m =>
      rw [remaining_eq_length_flat] at hr
      have hcne : chunk cs ≠ [] := by
        intro hc
        have h0 := chunk_eq_nil cs hc
        rw [h0] at hr
        simp at hr
      have hsrc1 : 1 ≤ (chunk cs).length := by
        cases hcc : chunk cs with
        | nil => exact absurd hcc hcne
        | cons a l => simp
      have hchle : (chunk cs).length ≤ (flat cs).length := chunk_length_le cs
      have hcnt1 : 1 ≤ min (chunk cs).length (m + 1) := by omega
      have hcntle : min (chunk cs).length (m + 1) ≤ (chunk cs).length :=
        Nat.min_le_left _ _
      have hrem : remaining (advance cs (min (chunk cs).length (m + 1))) =
          (flat cs).length - min (chunk cs).length (m + 1) := by
        rw [remaining_eq_length_flat, flat_advance, List.length_drop]
      have ihargs : m + 1 - min (chunk cs).length (m + 1) ≤
          remaining (advance cs (min (chunk cs).length (m + 1))) := by
        rw [hrem]
        omega
      have ih' := ih (advance cs (min (chunk cs).length (m + 1)))
        (m + 1 - min (chunk cs).length (m + 1)) ihargs (by omega)
      have htake : (chunk cs).take (min (chunk cs).length (m + 1)) =
          (flat cs).take (min (chunk cs).length (m + 1)) := by
        calc (chunk cs).take (min (chunk cs).length (m + 1))
            = ((flat cs).take (chunk cs).length).take
                (min (chunk cs).length (m + 1)) := by rw [chunk_take]
          _ = (flat cs).take
                (min (min (chunk cs).length (m + 1)) (chunk cs).length) :=
              List.take_take ..
          _ = (flat cs).take (min (chunk cs).length (m + 1)) := by
              rw [Nat.min_eq_left hcntle]
      have hsum : min (chunk cs).length (m + 1) +
          (m + 1 - min (chunk cs).length (m + 1)) = m + 1 := by omega
      simp only [copyLoop]
      rw [ih', flat_advance, advance_advance, hsum, Option.map_some']
      rw [htake, ← List.take_add, hsum]

lemma copy_of_le {cs : List (List Nat)} {n : Nat} (h : n ≤ remaining cs) :
    copy_to_uninit_slice cs n = some ((flat cs).take n, advance cs n) := by
  unfold copy_to_uninit_slice
  rw [if_neg (by omega)]
  exact copyLoop_correct n cs n h le_rfl

lemma try_read_of_le {cs : List (List Nat)} {sizeT : Nat}
    (h : sizeT ≤ remaining cs) :
    try_read sizeT cs = (some ((flat cs).take sizeT), advance cs sizeT) := by
  rw [remaining_eq_length_flat] at h
  unfold try_read
  rw [copy_of_le (by rw [remaining_eq_length_flat]; exact h)]
  simp [read_from_bytes, List.length_take, Nat.min_eq_left h]

lemma try_read_of_lt {cs : List (List Nat)} {sizeT : Nat}
    (h : remaining cs < sizeT) :
    try_read sizeT cs = (none, cs) := by
  unfold try_read copy_to_uninit_slice
  rw [if_pos h]
  have hz : ¬ (0 = sizeT) := by omega
  simp [read_from_bytes, hz]

lemma size_for_metadata_overflow {fixedSize elemSize count : Nat}
    (h : usizeMax < elemSize * count + fixedSize) :
    size_for_metadata fixedSize elemSize count = none := by
  unfold size_for_metadata checked_mul checked_add
  by_cases hm : elemSize * count ≤ usizeMax
  · rw [if_pos hm]
    show (if elemSize * count + fixedSize ≤ usizeMax then
        some (elemSize * count + fixedSize) else none) = none
    rw [if_neg (by omega)]
  · rw [if_neg hm]
    rfl

/-! Claim theorems. -/

/-- C1: for every buffer (the Bytes, BytesMut and byte-slice impls share the
modelled byte-level behaviour) and every type, if try_get or try_get_elems
returns a SizeError then the buffer afterwards has exactly the byte content
(hence remaining length) it had before the call: the speculatively taken
bytes are restored. -/
theorem try_get_size_error_restores_buffer
    (sizeT fixedSize elemSize count : Nat) (buf : List Nat) :
    ((try_get sizeT buf).fst = none → (try_get sizeT buf).snd = buf) ∧
    ((try_get_elems fixedSize elemSize count buf).fst = none →
      (try_get_elems fixedSize elemSize count buf).snd = buf) := by
  constructor
  · intro h
    unfold try_get at h ⊢
    cases hf : ref_from_front sizeT buf with
    | none => rfl
    | some ab =>
      rw [hf] at h
      obtain ⟨a, b⟩ := ab
      simp at h
  · intro h
    unfold try_get_elems at h ⊢
    cases hf : ref_from_front_with_elems fixedSize elemSize count buf with
    | none => rfl
    | some ab =>
      rw [hf] at h
      obtain ⟨a, b⟩ := ab
      simp at h

/-- Witness for C1 at a concrete short buffer. -/
theorem try_get_size_error_restores_buffer_witness :
    (try_get 5 [1, 2, 3]).snd = [1, 2, 3] ∧
    (try_get_elems 0 2 3 [1, 2, 3]).snd = [1, 2, 3] :=
  ⟨(try_get_size_error_restores_buffer 5 0 2 3 [1, 2, 3]).1 (by decide),
   (try_get_size_error_restores_buffer 5 0 2 3 [1, 2, 3]).2 (by decide)⟩

/-- C2: for every Buf with fewer remaining bytes than the size of the target
type, try_read returns a SizeError and consumes nothing: the buffer state
afterwards is exactly the state before. -/
theorem try_read_short_stream_unchanged (sizeT : Nat) (cs : List (List Nat))
    (h : remaining cs < sizeT) :
    (try_read sizeT cs).fst = none ∧ (try_read sizeT cs).snd = cs := by
  rw [try_read_of_lt h]
  exact ⟨rfl, rfl⟩

/-- Witness for C2 at a concrete short stream. -/
theorem try_read_short_stream_unchanged_witness :
    (try_read 3 [[1, 2]]).fst = none ∧ (try_read 3 [[1, 2]]).snd = [[1, 2]] :=
  try_read_short_stream_unchanged 3 [[1, 2]] (by decide)

/-- C3: for every Buf with at least size-of-T remaining bytes, try_read
succeeds, the returned value's byte representation is exactly the first
size-of-T bytes the stream held before the call, and the stream is advanced
by exactly size-of-T bytes (its content afterwards is the old content with
that prefix dropped). -/
theorem try_read_success_exact (sizeT : Nat) (cs : List (List Nat))
    (h : sizeT ≤ remaining cs) :
    (try_read sizeT cs).fst = some ((flat cs).take sizeT) ∧
    flat (try_read sizeT cs).snd = (flat cs).drop sizeT ∧
    remaining (try_read sizeT cs).snd = remaining cs - sizeT := by
  rw [try_read_of_le h]
  refine ⟨rfl, flat_advance cs sizeT, ?_⟩
  rw [remaining_eq_length_flat, flat_advance, List.length_drop,
    remaining_eq_length_flat]

/-- Witness for C3 at a concrete stream. -/
theorem try_read_success_exact_witness :
    (try_read 2 [[1, 2, 3]]).fst = some ((flat [[1, 2, 3]]).take 2) ∧
    flat (try_read 2 [[1, 2, 3]]).snd = (flat [[1, 2, 3]]).drop 2 ∧
    remaining (try_read 2 [[1, 2, 3]]).snd = remaining [[1, 2, 3]] - 2 :=
  try_read_success_exact 2 [[1, 2, 3]] (by decide)

/-- C4: for every chunking of a byte sequence, try_read over the chained
stream returns the identical result (same value or same error) as try_read
over a single contiguous stream holding the concatenation of the chunks,
and leaves behind streams with identical content and remaining length. -/
theorem try_read_chunk_transparency (sizeT : Nat) (cs : List (List Nat)) :
    (try_read sizeT cs).fst = (try_read sizeT [flat cs]).fst ∧
    flat (try_read sizeT cs).snd = flat (try_read sizeT [flat cs]).snd ∧
    remaining (try_read sizeT cs).snd =
      remaining (try_read sizeT [flat cs]).snd := by
  have hfl : flat [flat cs] = flat cs := by simp [flat]
  have hrem : remaining [flat cs] = remaining cs := by
    rw [remaining_eq_length_flat, remaining_eq_length_flat, hfl]
  by_cases h : sizeT ≤ remaining cs
  · rw [try_read_of_le h, try_read_of_le (by rw [hrem]; exact h)]
    refine ⟨by rw [hfl], ?_, ?_⟩
    · rw [flat_advance, flat_advance, hfl]
    · rw [remaining_eq_length_flat, remaining_eq_length_flat,
        flat_advance, flat_advance, hfl]
  · push_neg at h
    rw [try_read_of_lt h, try_read_of_lt (by rw [hrem]; exact h)]
    exact ⟨rfl, hfl.symm, hrem.symm⟩

/-- C5: try_peek and try_peek_elems never change the buffer, whether they
succeed or fail, and two successive try_peek calls with no intervening
advance return equal results. -/
theorem try_peek_preserves_and_idempotent
    (sizeT fixedSize elemSize count : Nat) (buf : List Nat) :
    (try_peek sizeT buf).snd = buf ∧
    (try_peek_elems fixedSize elemSize count buf).snd = buf ∧
    try_peek sizeT (try_peek sizeT buf).snd = try_peek sizeT buf :=
  ⟨rfl, rfl, rfl⟩

/-- C6: when the element count makes count times element-size (plus the
fixed prefix size) overflow usize, try_get_elems returns a SizeError with
the buffer untouched and try_peek_elems returns a SizeError; no wraparound
to a truncated length occurs. -/
theorem try_get_elems_overflow_size_error
    (fixedSize elemSize count : Nat) (buf : List Nat)
    (h : usizeMax < elemSize * count + fixedSize) :
    try_get_elems fixedSize elemSize count buf = (none, buf) ∧
    try_peek_elems fixedSize elemSize count buf = (none, buf) := by
  have hs := size_for_metadata_overflow h
  unfold try_get_elems try_peek_elems ref_from_front_with_elems
  rw [hs]
  exact ⟨rfl, rfl⟩

/-- Witness for C6 at a concrete overflowing count. -/
theorem try_get_elems_overflow_size_error_witness :
    try_get_elems 0 1 (2 ^ 64) [1, 2, 3] = (none, [1, 2, 3]) ∧
    try_peek_elems 0 1 (2 ^ 64) [1, 2, 3] = (none, [1, 2, 3]) :=
  try_get_elems_overflow_size_error 0 1 (2 ^ 64) [1, 2, 3] (by decide)

/-- C7: for every legal value of a type that is both writable and readable
(represented by its byte representation, since every bit pattern of such a
type is legal), writing it to an empty growable buffer and then reading it
back with try_read yields a bitwise-equal value. -/
theorem write_then_read_roundtrip (t : List Nat) :
    (try_read t.length [write [] t]).fst = some t := by
  have h : t.length ≤ remaining [write [] t] := by
    rw [remaining_eq_length_flat]
    simp [flat, write]
  rw [try_read_of_le h]
  simp [flat, write]

/-- C8: on the concrete 44-byte stream of two concatenated IPv4 headers plus
four trailing bytes, try_get_elems with element count 2 succeeds, consumes
exactly 40 bytes, returns two equal header values with the documented field
values, and leaves the stream holding exactly ff fe fd fc. -/
theorem try_get_elems_ipv4_scenario :
    (try_get_elems 0 20 2 testStream44).fst = some (testStream44.take 40) ∧
    (try_get_elems 0 20 2 testStream44).snd = [0xff, 0xfe, 0xfd, 0xfc] ∧
    (testStream44.take 40).take 20 = (testStream44.take 40).drop 20 ∧
    Ipv4Header.ofBytes ((testStream44.take 40).take 20) =
      ⟨0x45, 20, 1, 6, [127, 0, 0, 1], [127, 0, 0, 2]⟩ ∧
    testStream44.length = 44 ∧
    (try_get_elems 0 20 2 testStream44).snd.length = 4 := by
  decide

/-- C9: for every stream, the uninitialised-copy primitive with a
zero-length destination succeeds, returns the empty initialised slice, and
leaves the stream exactly as it was. -/
theorem copy_to_uninit_slice_zero_len (cs : List (List Nat)) :
    copy_to_uninit_slice cs 0 = some ([], cs) := by
  unfold copy_to_uninit_slice
  rw [if_neg (by omega)]
  rfl

/-- C10: under the Buf contract (which the chunked-buffer model satisfies:
the visible chunk is non-empty whenever bytes remain, and advancing
decreases remaining), the copy loop of copy_to_uninit_slice makes at least
one byte of progress per iteration, so a fuel of the destination length is
enough for it to terminate with the copied prefix. -/
theorem copyLoop_terminates_within_dst_len (cs : List (List Nat)) (n : Nat)
    (h : n ≤ remaining cs) :
    copyLoop n cs n = some ((flat cs).take n, advance cs n) :=
  copyLoop_correct n cs n h le_rfl

/-- Witness for C10 at a concrete chunked stream. -/
theorem copyLoop_terminates_within_dst_len_witness :
    copyLoop 3 [[1], [2, 3]] 3 =
      some ((flat [[1], [2, 3]]).take 3, advance [[1], [2, 3]] 3) :=
  copyLoop_terminates_within_dst_len [[1], [2, 3]] 3 (by decide)

end ZerocopyBuf
